import Mathlib

/-!
Verification of the manuscript aggregation and line-reconstruction merge logic
of the Virtual Mani server (`server.js` and its variant).

The JavaScript source is shallowly embedded: the line data model, the XML line
parser, the positional line merger, the file aggregator (`getManuscriptData`)
and the translation endpoint handler are translated into executable Lean
definitions, and the specification's properties are proved or refuted about
them.
-/

namespace VirtualMani

/-- Model of JavaScript `String.prototype.endsWith`: `jsEndsWith s suf` is true
iff `suf` is a suffix of `s`. (Lean's builtin `String.endsWith` is
extensionally the same but does not reduce in the kernel, so the character-list
form is used.) -/
def jsEndsWith (s suf : String) : Bool :=
  decide (s.data.reverse.take suf.data.length = suf.data.reverse)

/-- The character class ECMAScript's `TrimString` removes: `WhiteSpace`
(tab, vertical tab, form feed, space, no-break space, zero-width no-break
space, and the Unicode `Space_Separator` category) together with
`LineTerminator` (LF, CR, U+2028, U+2029). -/
def jsWhitespace (c : Char) : Bool :=
  c = '\t' || c = '\n' || c = '\u000B' || c = '\u000C' || c = '\r' || c = ' ' ||
  c = '\u00A0' || c = '\u1680' || ('\u2000' ≤ c && c ≤ '\u200A') ||
  c = '\u2028' || c = '\u2029' || c = '\u202F' || c = '\u205F' || c = '\u3000' ||
  c = '\uFEFF'

/-- Model of JavaScript `String.prototype.trim` (used on `textContent` in
`parseXML`): drops ECMAScript whitespace characters from both ends. -/
def jsTrim (s : String) : String :=
  ⟨((s.data.dropWhile jsWhitespace).reverse.dropWhile jsWhitespace).reverse⟩

/-- A parsed manuscript line, as produced by `parseXML` in the frontend:
`{ page: line.getAttribute("page"), line: line.getAttribute("line"),
   text: line.textContent.trim() }`. -/
structure Line where
  page : String
  line : String
  text : String
  deriving Repr, DecidableEq

/-- A line of a merged (combined) sequence: a `Line` plus the `isFilled` flag
added by the merge step. -/
structure FilledLine where
  page : String
  line : String
  text : String
  isFilled : Bool
  deriving Repr, DecidableEq

/-- A `<line>` element of an XML document as the DOM exposes it to `parseXML`,
in document order: the two attributes and the raw (untrimmed) text content. -/
structure RawLine where
  page : String
  line : String
  rawText : String
  deriving Repr, DecidableEq

/-- Embedding of the frontend's `parseXML` applied to the document's `<line>`
elements (the DOM traversal itself is external; `doc` is the list
`getElementsByTagName("line")` yields, in document order):
each element becomes a `Line` with trimmed text, and in reconstruction mode
the result is filtered to the lines with truthy (non-empty) text,
`lines.filter(l => l.text)`. -/
def parseXML (doc : List RawLine) (isReconstruction : Bool) : List Line :=
  let lines := doc.map (fun e => { page := e.page, line := e.line, text := jsTrim e.rawText })
  if isReconstruction then lines.filter (fun l => l.text != "") else lines

/-- Embedding of the merge loop in the frontend's data-loading effect:

```js
let currentReconLine = 0;
const combinedLines = originalLines.map(line => {
    if (!line.text && reconstructionLines[currentReconLine]) {
        const filledLine = { ...reconstructionLines[currentReconLine], isFilled: true };
        currentReconLine++;
        return filledLine;
    }
    return {...line, isFilled: false};
});
```

The cursor `currentReconLine` is represented by consuming the head of the
remaining reconstruction list: `!line.text` is the empty-string test and
`reconstructionLines[currentReconLine]` exists iff the remaining list is
non-empty. Note that a filled line spreads the whole reconstruction entry,
page and line attributes included. -/
def combinedLines : List Line → List Line → List FilledLine
  | [], _ => []
  | l :: rest, recon =>
    if l.text = "" then
      match recon with
      | r :: rrest =>
          { page := r.page, line := r.line, text := r.text, isFilled := true }
            :: combinedLines rest rrest
      | [] =>
          { page := l.page, line := l.line, text := l.text, isFilled := false }
            :: combinedLines rest []
    else
      { page := l.page, line := l.line, text := l.text, isFilled := false }
        :: combinedLines rest recon

/-- Positions (0-based indices) of the empty-text lines of a sequence, in
order: the slots the merge loop fills. -/
def emptyIdx : List Line → List Nat
  | [] => []
  | l :: rest =>
    if l.text = "" then 0 :: (emptyIdx rest).map (· + 1)
    else (emptyIdx rest).map (· + 1)

/-- The unfilled copy `{...line, isFilled: false}` of an original line. -/
def unfilled (l : Line) : FilledLine :=
  { page := l.page, line := l.line, text := l.text, isFilled := false }

/-- The filled copy `{...r, isFilled: true}` of a reconstruction line. -/
def filled (r : Line) : FilledLine :=
  { page := r.page, line := r.line, text := r.text, isFilled := true }

theorem length_combinedLines (orig : List Line) :
    ∀ recon, (combinedLines orig recon).length = orig.length := by
  induction orig with
  | nil => intro recon; rfl
  | cons a rest ih =>
    intro recon
    by_cases h : a.text = ""
    · cases recon with
      | nil => simp [combinedLines, h, ih]
      | cons r rrest => simp [combinedLines, h, ih]
    · simp [combinedLines, h, ih]

theorem combinedLines_nil_recon (orig : List Line) :
    combinedLines orig [] = orig.map unfilled := by
  induction orig with
  | nil => rfl
  | cons a rest ih =>
    by_cases h : a.text = "" <;> simp [combinedLines, h, ih, unfilled]

/-- Element characterization of the merge: the element at position `i` is
either the unfilled copy of the original's element there, or (only when the
original's text there is empty) the filled copy of some reconstruction
entry. -/
theorem combinedLines_get (orig : List Line) :
    ∀ (recon : List Line) (i : Nat) (l : Line) (f : FilledLine), orig[i]? = some l → (combinedLines orig recon)[i]? = some f →
      f = unfilled l ∨ (l.text = "" ∧ ∃ (k : Nat) (r : Line), recon[k]? = some r ∧ f = filled r) := by
  induction orig with
  | nil => intro recon i l f hl _; simp at hl
  | cons a rest ih =>
    intro recon i l f hl hf
    by_cases h : a.text = ""
    · cases recon with
      | cons r rrest =>
        simp only [combinedLines, h, if_true] at hf
        cases i with
        | zero =>
          simp at hl hf
          exact Or.inr ⟨hl ▸ h, 0, r, by simp, by simp [filled, ← hf]⟩
        | succ i =>
          simp only [List.getElem?_cons_succ] at hl hf
          rcases ih rrest i l f hl hf with h1 | ⟨he, k, r', hk, hfr⟩
          · exact Or.inl h1
          · exact Or.inr ⟨he, k + 1, r', by simpa using hk, hfr⟩
      | nil =>
        simp only [combinedLines, h, if_true] at hf
        cases i with
        | zero =>
          simp at hl hf
          exact Or.inl (by simp [unfilled, ← hf, ← hl, h])
        | succ i =>
          simp only [List.getElem?_cons_succ] at hl hf
          exact ih [] i l f hl hf
    · simp only [combinedLines, h, if_false] at hf
      cases i with
      | zero =>
        simp at hl hf
        exact Or.inl (by simp [unfilled, ← hf, ← hl])
      | succ i =>
        simp only [List.getElem?_cons_succ] at hl hf
        exact ih recon i l f hl hf

/-- Fill placement: the `k`-th reconstruction entry lands exactly at the
`k`-th empty-text position of the original. -/
theorem combinedLines_fill (orig : List Line) :
    ∀ (recon : List Line) (k : Nat) (r : Line) (i : Nat), recon[k]? = some r → (emptyIdx orig)[k]? = some i →
      (combinedLines orig recon)[i]? = some (filled r) := by
  induction orig with
  | nil => intro recon k r i _ hi; simp [emptyIdx] at hi
  | cons a rest ih =>
    intro recon k r i hk hi
    by_cases h : a.text = ""
    · cases recon with
      | nil => simp at hk
      | cons r0 rrest =>
        simp only [combinedLines, h, if_true]
        simp only [emptyIdx, h, if_true] at hi
        cases k with
        | zero =>
          simp at hk hi
          subst hk
          simp [← hi, filled]
        | succ k =>
          simp only [List.getElem?_cons_succ, List.getElem?_map] at hk hi
          rcases Option.map_eq_some'.mp hi with ⟨i', hi', rfl⟩
          simpa using ih rrest k r i' hk hi'
    · simp only [combinedLines, h, if_false]
      simp only [emptyIdx, h, if_false, List.getElem?_map] at hi
      rcases Option.map_eq_some'.mp hi with ⟨i', hi', rfl⟩
      simpa using ih recon k r i' hk hi'

/-- Fill provenance: every element of the merge flagged `isFilled` is the
filled copy of the `k`-th reconstruction entry, sitting at the `k`-th
empty-text position of the original, for some `k`. -/
theorem combinedLines_filled_src (orig : List Line) :
    ∀ (recon : List Line) (i : Nat) (f : FilledLine), (combinedLines orig recon)[i]? = some f → f.isFilled = true →
      ∃ (k : Nat) (r : Line), recon[k]? = some r ∧ (emptyIdx orig)[k]? = some i ∧ f = filled r := by
  induction orig with
  | nil => intro recon i f hf _; simp [combinedLines] at hf
  | cons a rest ih =>
    intro recon i f hf hfill
    by_cases h : a.text = ""
    · cases recon with
      | nil =>
        simp only [combinedLines, h, if_true] at hf
        cases i with
        | zero =>
          simp at hf
          rw [← hf] at hfill
          simp at hfill
        | succ i =>
          simp only [List.getElem?_cons_succ] at hf
          rcases ih [] i f hf hfill with ⟨k, r, hk, _, _⟩
          simp at hk
      | cons r0 rrest =>
        simp only [combinedLines, h, if_true] at hf
        cases i with
        | zero =>
          simp at hf
          exact ⟨0, r0, by simp, by simp [emptyIdx, h], hf.symm⟩
        | succ i =>
          simp only [List.getElem?_cons_succ] at hf
          rcases ih rrest i f hf hfill with ⟨k, r, hk, hi, hfr⟩
          exact ⟨k + 1, r, by simpa using hk, by simp [emptyIdx, h, hi], hfr⟩
    · simp only [combinedLines, h, if_false] at hf
      cases i with
      | zero =>
        simp at hf
        rw [← hf] at hfill
        simp at hfill
      | succ i =>
        simp only [List.getElem?_cons_succ] at hf
        rcases ih recon i f hf hfill with ⟨k, r, hk, hi, hfr⟩
        exact ⟨k, r, hk, by simp [emptyIdx, h, hi], hfr⟩

/-- C1 counterexample: merging an original whose single line is empty at page
"1", line "1" with a reconstruction entry carrying page "2", line "9" yields a
merged element whose page and line identifiers come from the reconstruction
("2", "9"), not from the original ("1", "1"): the merged output does not keep
the original's page/line identifiers position by position. -/
theorem merger_identifier_mismatch :
    combinedLines [{ page := "1", line := "1", text := "" }]
        [{ page := "2", line := "9", text := "x" }]
      = [{ page := "2", line := "9", text := "x", isFilled := true }]
    ∧ ("2" : String) ≠ "1" ∧ ("9" : String) ≠ "1" := by
  decide

/-- C1 (amended): the merged output has the same length as the original; at
every position whose original text is non-empty the merged element is the
original element with `isFilled := false`; at a position whose original text
is empty the merged element is either the original with `isFilled := false`
or a reconstruction entry taken whole — page, line and text all from the
reconstruction — with `isFilled := true`. -/
theorem merger_structure (orig recon : List Line) :
    (combinedLines orig recon).length = orig.length ∧
    ∀ (i : Nat) (l : Line) (f : FilledLine), orig[i]? = some l →
        (combinedLines orig recon)[i]? = some f →
      (l.text ≠ "" → f = unfilled l) ∧
      (l.text = "" → f = unfilled l ∨
        ∃ (k : Nat) (r : Line), recon[k]? = some r ∧ f = filled r) := by
  refine ⟨length_combinedLines orig recon, ?_⟩
  intro i l f hl hf
  rcases combinedLines_get orig recon i l f hl hf with h1 | ⟨he, hex⟩
  · exact ⟨fun _ => h1, fun _ => Or.inl h1⟩
  · exact ⟨fun hne => absurd he hne, fun _ => Or.inr hex⟩

theorem merger_structure_witness :
    ({ page := "1", line := "1", text := "a", isFilled := false } : FilledLine)
      = unfilled { page := "1", line := "1", text := "a" } :=
  ((merger_structure [{ page := "1", line := "1", text := "a" }]
        [{ page := "2", line := "9", text := "x" }]).2 0
      { page := "1", line := "1", text := "a" }
      { page := "1", line := "1", text := "a", isFilled := false }
      (by decide) (by decide)).1 (by decide)

/-- C2: with the reconstruction sequence pre-filtered to non-empty text, the
`k`-th reconstruction entry lands at the `k`-th empty-text position of the
original (in the original's order), and every `isFilled` element of the merge
arises that way — so reconstruction entries beyond the number of empty slots
appear at no position of the merged output. -/
theorem merger_positional_fill (orig recon : List Line)
    (_hpre : ∀ l ∈ recon, l.text ≠ "") :
    (∀ (k : Nat) (r : Line) (i : Nat), recon[k]? = some r →
        (emptyIdx orig)[k]? = some i →
        (combinedLines orig recon)[i]? = some (filled r)) ∧
    (∀ (i : Nat) (f : FilledLine), (combinedLines orig recon)[i]? = some f →
        f.isFilled = true →
        ∃ (k : Nat) (r : Line), recon[k]? = some r ∧
          (emptyIdx orig)[k]? = some i ∧ f = filled r) :=
  ⟨fun k r i => combinedLines_fill orig recon k r i,
   fun i f => combinedLines_filled_src orig recon i f⟩

theorem merger_positional_fill_witness :
    (combinedLines
        [{ page := "1", line := "1", text := "" }, { page := "1", line := "2", text := "b" }]
        [{ page := "1", line := "1", text := "y" }])[0]?
      = some (filled { page := "1", line := "1", text := "y" }) :=
  (merger_positional_fill
      [{ page := "1", line := "1", text := "" }, { page := "1", line := "2", text := "b" }]
      [{ page := "1", line := "1", text := "y" }] (by decide)).1
    0 { page := "1", line := "1", text := "y" } 0 (by decide) (by decide)

/-- C3: the merged sequence always has exactly the length of the original
sequence. -/
theorem merger_length (orig recon : List Line) :
    (combinedLines orig recon).length = orig.length :=
  length_combinedLines orig recon

/-- C7: merging with an empty reconstruction sequence returns the original
element by element, with `isFilled := false` everywhere. -/
theorem merger_empty_recon (orig : List Line) :
    combinedLines orig [] =
      orig.map (fun l => { page := l.page, line := l.line, text := l.text, isFilled := false }) :=
  combinedLines_nil_recon orig

/-- C9: when every reconstruction entry has non-empty text (as the parser's
reconstruction mode guarantees), every merged element flagged `isFilled` has
non-empty text, and every empty-text merged element has `isFilled = false`. -/
theorem merger_filled_nonempty (orig recon : List Line)
    (hpre : ∀ l ∈ recon, l.text ≠ "") :
    ∀ f ∈ combinedLines orig recon,
      (f.isFilled = true → f.text ≠ "") ∧ (f.text = "" → f.isFilled = false) := by
  intro f hf
  have key : f.isFilled = true → f.text ≠ "" := by
    intro hfill
    rcases List.mem_iff_getElem?.mp hf with ⟨i, hi⟩
    rcases combinedLines_filled_src orig recon i f hi hfill with ⟨k, r, hk, -, rfl⟩
    have hr : r ∈ recon := by
      rcases List.getElem?_eq_some.mp hk with ⟨hlt, rfl⟩
      exact List.getElem_mem hlt
    simpa [filled] using hpre r hr
  refine ⟨key, fun hte => ?_⟩
  cases hfill : f.isFilled
  · rfl
  · exact absurd hte (key hfill)

theorem merger_filled_nonempty_witness :
    ((filled { page := "1", line := "1", text := "y" }).isFilled = true →
      (filled { page := "1", line := "1", text := "y" }).text ≠ "") ∧
    ((filled { page := "1", line := "1", text := "y" }).text = "" →
      (filled { page := "1", line := "1", text := "y" }).isFilled = false) :=
  merger_filled_nonempty [{ page := "1", line := "1", text := "" }]
    [{ page := "1", line := "1", text := "y" }] (by decide)
    (filled { page := "1", line := "1", text := "y" }) (by decide)

/-- C8: the parser returns the document's `<line>` elements in document order
(same length, and the `i`-th output comes from the `i`-th element, attributes
verbatim and text trimmed), and in reconstruction mode every returned line has
non-empty text. -/
theorem parser_order_trim_filter (doc : List RawLine) :
    ((parseXML doc false).length = doc.length) ∧
    (∀ (i : Nat) (e : RawLine), doc[i]? = some e →
        (parseXML doc false)[i]? =
          some { page := e.page, line := e.line, text := jsTrim e.rawText }) ∧
    (∀ l ∈ parseXML doc true, l.text ≠ "") := by
  refine ⟨by simp [parseXML], ?_, ?_⟩
  · intro i e he
    simp [parseXML, List.getElem?_map, he]
  · intro l hl
    simp [parseXML, List.mem_filter] at hl
    exact hl.2

theorem parser_order_trim_filter_witness :
    (parseXML [{ page := "1", line := "1", rawText := "\u00A0a " }] false)[0]?
      = some { page := "1", line := "1", text := "a" } :=
  (parser_order_trim_filter [{ page := "1", line := "1", rawText := "\u00A0a " }]).2.1
    0 { page := "1", line := "1", rawText := "\u00A0a " } (by decide)

/-- A file of a top-level folder: its name (from `fs.readdir(folderPath)`)
and the content `fs.readFile(filePath, 'utf8')` returns for it. -/
structure FileEntry where
  name : String
  content : String
  deriving Repr, DecidableEq

/-- A top-level item of the data root, as `fs.readdir(DATA_PATH)` lists it:
either a non-directory entry (skipped after the `fs.stat` check) or a
directory with its file listing. -/
inductive TopItem where
  | file (name : String)
  | dir (name : String) (files : List FileEntry)
  deriving Repr, DecidableEq

/-- The filename filter of `getManuscriptData`:
`fileName.endsWith('.xml') && !fileName.endsWith('_test_input.xml')`. -/
def qualifies (fileName : String) : Bool :=
  jsEndsWith fileName ".xml" && !(jsEndsWith fileName "_test_input.xml")

/-- JavaScript object-assignment semantics for a string-keyed object
represented as an insertion-ordered association list: `obj[k] = v` replaces
the value of an existing key in place and appends a fresh key at the end. -/
def setKey {α : Type} : List (String × α) → String → α → List (String × α)
  | [], k, v => [(k, v)]
  | (k', v') :: rest, k, v =>
    if k' = k then (k, v) :: rest else (k', v') :: setKey rest k v

/-- JavaScript property read `obj[k]`: the value stored under key `k`, if
any. -/
def getKey? {α : Type} : List (String × α) → String → Option α
  | [], _ => none
  | (k', v') :: rest, k => if k' = k then some v' else getKey? rest k

/-- The value `getManuscriptData` builds:
`{ originals: {...}, reconstructions: {...} }`, JavaScript objects modelled
as insertion-ordered association lists. -/
structure ManiData where
  originals : List (String × String)
  reconstructions : List (String × List (String × String))
  deriving Repr, DecidableEq

/-- One iteration of the inner file loop of `getManuscriptData`: if the name
passes `qualifies`, store the content under `originals[fileName]` when the
folder is named `"originals"`, and under `reconstructions[folderName][fileName]`
otherwise (creating the inner object first when the outer key is absent). -/
def processFile (d : ManiData) (folderName : String) (f : FileEntry) : ManiData :=
  if qualifies f.name then
    if folderName = "originals" then
      { d with originals := setKey d.originals f.name f.content }
    else
      let inner := (getKey? d.reconstructions folderName).getD []
      { d with reconstructions :=
          setKey d.reconstructions folderName (setKey inner f.name f.content) }
  else d

/-- The inner file loop of `getManuscriptData` over one folder's listing. -/
def processFolder (d : ManiData) (folderName : String) (files : List FileEntry) : ManiData :=
  files.foldl (fun acc f => processFile acc folderName f) d

/-- One iteration of the outer loop of `getManuscriptData`: skip
non-directories, run the file loop on a directory. -/
def processItem (d : ManiData) : TopItem → ManiData
  | .file _ => d
  | .dir name files => processFolder d name files

/-- The aggregation core of `getManuscriptData` (`server.js`): fold the
top-level items of the data root into the `{originals, reconstructions}`
groupings, starting from two empty objects. I/O failure propagation is
modelled separately by `getManuscriptDataE`. -/
def getManuscriptData (items : List TopItem) : ManiData :=
  items.foldl processItem { originals := [], reconstructions := [] }

theorem setKey_mem {α : Type} :
    ∀ (m : List (String × α)) (k : String) (v : α) (p : String × α),
      p ∈ setKey m k v → p = (k, v) ∨ p ∈ m := by
  intro m k v
  induction m with
  | nil => intro p hp; simpa [setKey] using hp
  | cons q rest ih =>
    intro p hp
    by_cases h : q.1 = k
    · simp only [setKey, h, if_true] at hp
      rcases List.mem_cons.mp hp with rfl | hmem
      · exact Or.inl rfl
      · exact Or.inr (List.mem_cons_of_mem q hmem)
    · simp only [setKey, h, if_false] at hp
      rcases List.mem_cons.mp hp with rfl | hmem
      · exact Or.inr (List.mem_cons_self q rest)
      · rcases ih p hmem with h1 | h2
        · exact Or.inl h1
        · exact Or.inr (List.mem_cons_of_mem q h2)

theorem setKey_ne_nil {α : Type} (m : List (String × α)) (k : String) (v : α) :
    setKey m k v ≠ [] := by
  cases m with
  | nil => simp [setKey]
  | cons q rest =>
    by_cases h : q.1 = k <;> simp [setKey, h]

theorem getKey?_mem {α : Type} :
    ∀ (m : List (String × α)) (k : String) (v : α),
      getKey? m k = some v → (k, v) ∈ m := by
  intro m k v
  induction m with
  | nil => intro h; simp [getKey?] at h
  | cons q rest ih =>
    intro h
    by_cases hq : q.1 = k
    · simp only [getKey?, hq, if_true, Option.some.injEq] at h
      subst h
      rw [← hq]
      exact List.mem_cons_self q rest
    · simp only [getKey?, hq, if_false] at h
      exact List.mem_cons_of_mem q (ih h)

/-- Key sanity for the aggregator's output: every key of `originals` and
every inner key of `reconstructions` passes `qualifies`. -/
def GoodKeys (d : ManiData) : Prop :=
  (∀ p ∈ d.originals, qualifies p.1 = true) ∧
  (∀ p ∈ d.reconstructions, ∀ q ∈ p.2, qualifies q.1 = true)

theorem processFile_goodKeys (d : ManiData) (n : String) (f : FileEntry) :
    GoodKeys d → GoodKeys (processFile d n f) := by
  intro hd
  by_cases hq : qualifies f.name = true
  · by_cases hn : n = "originals"
    · refine ⟨?_, ?_⟩
      · intro p hp
        simp only [processFile, hq, hn, if_true] at hp
        rcases setKey_mem d.originals f.name f.content p hp with rfl | hmem
        · exact hq
        · exact hd.1 p hmem
      · intro p hp
        simp only [processFile, hq, hn, if_true] at hp
        exact hd.2 p hp
    · refine ⟨?_, ?_⟩
      · intro p hp
        simp only [processFile, hq, hn, if_true, if_false] at hp
        exact hd.1 p hp
      · intro p hp
        simp only [processFile, hq, hn, if_true, if_false] at hp
        rcases setKey_mem _ _ _ p hp with rfl | hmem
        · intro q hqmem
          rcases setKey_mem _ _ _ q hqmem with rfl | hqm
          · exact hq
          · rcases hval : getKey? d.reconstructions n with _ | inner
            · simp [hval] at hqm
            · have : (n, inner) ∈ d.reconstructions := getKey?_mem _ _ _ hval
              exact hd.2 (n, inner) this q (by simpa [hval] using hqm)
        · exact hd.2 p hmem
  · simpa only [processFile, hq, if_false] using hd

theorem processFolder_goodKeys (n : String) :
    ∀ (files : List FileEntry) (d : ManiData),
      GoodKeys d → GoodKeys (processFolder d n files) := by
  intro files
  induction files with
  | nil => intro d hd; exact hd
  | cons f rest ih =>
    intro d hd
    have h1 : processFolder d n (f :: rest) = processFolder (processFile d n f) n rest := rfl
    rw [h1]
    exact ih (processFile d n f) (processFile_goodKeys d n f hd)

theorem getManuscriptData_goodKeys (items : List TopItem) :
    GoodKeys (getManuscriptData items) := by
  have main : ∀ (its : List TopItem) (d : ManiData),
      GoodKeys d → GoodKeys (its.foldl processItem d) := by
    intro its
    induction its with
    | nil => intro d hd; exact hd
    | cons it rest ih =>
      intro d hd
      have step : GoodKeys (processItem d it) := by
        cases it with
        | file name => exact hd
        | dir n files => exact processFolder_goodKeys n files d hd
      exact ih (processItem d it) step
  exact main items _ ⟨by intro p hp; simp at hp, by intro p hp; simp at hp⟩

theorem qualifies_iff (s : String) :
    qualifies s = true ↔
      jsEndsWith s ".xml" = true ∧ jsEndsWith s "_test_input.xml" = false := by
  simp [qualifies, Bool.and_eq_true, Bool.not_eq_true']

/-- C4: every key of the aggregator's `originals` mapping and every inner key
of its `reconstructions` mapping ends in `.xml` and does not end in
`_test_input.xml`. -/
theorem aggregator_key_filter (items : List TopItem) :
    (∀ p ∈ (getManuscriptData items).originals,
        jsEndsWith p.1 ".xml" = true ∧ jsEndsWith p.1 "_test_input.xml" = false) ∧
    (∀ p ∈ (getManuscriptData items).reconstructions, ∀ q ∈ p.2,
        jsEndsWith q.1 ".xml" = true ∧ jsEndsWith q.1 "_test_input.xml" = false) := by
  have h := getManuscriptData_goodKeys items
  exact ⟨fun p hp => (qualifies_iff p.1).mp (h.1 p hp),
         fun p hp q hq => (qualifies_iff q.1).mp (h.2 p hp q hq)⟩

theorem aggregator_key_filter_witness :
    jsEndsWith "a.xml" ".xml" = true ∧ jsEndsWith "a.xml" "_test_input.xml" = false :=
  (aggregator_key_filter
      [TopItem.dir "originals" [{ name := "a.xml", content := "c" },
                               { name := "b_test_input.xml", content := "t" }]]).1
    ("a.xml", "c") (by decide)

/-- Entry well-formedness for the `reconstructions` mapping, relative to a
predicate `W` recording where an outer key may come from. -/
def ReconInv (W : String → Prop) (d : ManiData) : Prop :=
  ∀ p ∈ d.reconstructions, p.1 ≠ "originals" ∧ p.2 ≠ [] ∧ W p.1

theorem processFile_reconInv (W : String → Prop) (d : ManiData) (n : String)
    (f : FileEntry) (hW : n ≠ "originals" → qualifies f.name = true → W n) :
    ReconInv W d → ReconInv W (processFile d n f) := by
  intro hd p hp
  by_cases hq : qualifies f.name = true
  · by_cases hn : n = "originals"
    · simp only [processFile, hq, hn, if_true] at hp
      exact hd p hp
    · simp only [processFile, hq, hn, if_true, if_false] at hp
      rcases setKey_mem _ _ _ p hp with rfl | hmem
      · exact ⟨hn, setKey_ne_nil _ _ _, hW hn hq⟩
      · exact hd p hmem
  · simp only [processFile, hq, if_false] at hp
    exact hd p hp

theorem processFolder_reconInv (W : String → Prop) (n : String) :
    ∀ (files : List FileEntry) (d : ManiData),
      (n ≠ "originals" → (∃ f ∈ files, qualifies f.name = true) → W n) →
      ReconInv W d → ReconInv W (processFolder d n files) := by
  intro files
  induction files with
  | nil => intro d _ hd; exact hd
  | cons f rest ih =>
    intro d hW hd
    have h1 : processFolder d n (f :: rest) = processFolder (processFile d n f) n rest := rfl
    rw [h1]
    refine ih (processFile d n f) ?_ ?_
    · intro hn hex
      rcases hex with ⟨g, hg, hqg⟩
      exact hW hn ⟨g, List.mem_cons_of_mem f hg, hqg⟩
    · exact processFile_reconInv W d n f
        (fun hn hq => hW hn ⟨f, List.mem_cons_self f rest, hq⟩) hd

theorem foldl_reconInv (W : String → Prop) :
    ∀ (its : List TopItem) (d : ManiData),
      (∀ n files, TopItem.dir n files ∈ its → n ≠ "originals" →
          (∃ f ∈ files, qualifies f.name = true) → W n) →
      ReconInv W d → ReconInv W (its.foldl processItem d) := by
  intro its
  induction its with
  | nil => intro d _ hd; exact hd
  | cons it rest ih =>
    intro d hW hd
    have step : ReconInv W (processItem d it) := by
      cases it with
      | file name => exact hd
      | dir n files =>
        exact processFolder_reconInv W n files d
          (fun hn hex => hW n files (List.mem_cons_self _ _) hn hex) hd
    exact ih (processItem d it)
      (fun n files hmem hn hex => hW n files (List.mem_cons_of_mem it hmem) hn hex) step

/-- C10: every outer key of the aggregator's `reconstructions` mapping is not
`"originals"`, maps to a non-empty inner mapping, and comes from a top-level
directory of that name containing at least one qualifying file — so a
directory with no qualifying `.xml` file contributes no outer key. -/
theorem aggregator_recon_wellformed (items : List TopItem) :
    ∀ p ∈ (getManuscriptData items).reconstructions,
      p.1 ≠ "originals" ∧ p.2 ≠ [] ∧
      ∃ files, TopItem.dir p.1 files ∈ items ∧
        ∃ f ∈ files, qualifies f.name = true := by
  exact foldl_reconInv
    (fun k => ∃ files, TopItem.dir k files ∈ items ∧ ∃ f ∈ files, qualifies f.name = true)
    items { originals := [], reconstructions := [] }
    (fun n files hmem _ hex => ⟨files, hmem, hex⟩)
    (by intro p hp; simp at hp)

theorem aggregator_recon_wellformed_witness :
    ("gpt-round-1" : String) ≠ "originals" ∧
    ([("a.xml", "d")] : List (String × String)) ≠ [] ∧
    ∃ files, TopItem.dir "gpt-round-1" files ∈
        [TopItem.dir "gpt-round-1" [{ name := "a.xml", content := "d" }]] ∧
      ∃ f ∈ files, qualifies f.name = true :=
  aggregator_recon_wellformed
    [TopItem.dir "gpt-round-1" [{ name := "a.xml", content := "d" }]]
    ("gpt-round-1", [("a.xml", "d")]) (by decide)

/-- A file as the fallible aggregator sees it: reading its content
(`fs.readFile`) either succeeds with the text or rejects with an error. -/
structure FileEntryE where
  name : String
  content : Except String String
  deriving Repr

/-- A top-level item of the data root for the fallible aggregator. -/
inductive TopItemE where
  | file (name : String)
  | dir (name : String) (files : List FileEntryE)
  deriving Repr

/-- A source tree with failure behaviour: listing the data root
(`fs.readdir(DATA_PATH)`) either rejects (root missing, permission denied)
or yields the top-level items. -/
structure SourceTree where
  rootList : Except String (List TopItemE)

/-- The file a successful read produces (failing reads never contribute,
their placeholder content is irrelevant). -/
def stripFile (f : FileEntryE) : FileEntry :=
  { name := f.name,
    content := match f.content with | .ok c => c | .error _ => "" }

/-- Forget the failure structure of an item. -/
def stripItem : TopItemE → TopItem
  | .file n => .file n
  | .dir n files => .dir n (files.map stripFile)

/-- A file is unproblematic iff it is skipped by the name filter or its read
succeeds. -/
def fileReadOk (f : FileEntryE) : Bool :=
  !qualifies f.name || (match f.content with | .ok _ => true | .error _ => false)

def itemReadsOk : TopItemE → Bool
  | .file _ => true
  | .dir _ files => files.all fileReadOk

/-- Every file read the aggregation performs succeeds. -/
def allReadsOk (items : List TopItemE) : Bool :=
  items.all itemReadsOk

/-- Fallible version of the inner loop body: `await fs.readFile` rejects the
whole `getManuscriptData` promise when the read of a qualifying file fails. -/
def processFileE (d : ManiData) (n : String) (f : FileEntryE) : Except String ManiData :=
  if qualifies f.name then
    match f.content with
    | .error e => .error e
    | .ok c => .ok (processFile d n { name := f.name, content := c })
  else .ok d

def processFolderE (d : ManiData) (n : String) : List FileEntryE → Except String ManiData
  | [] => .ok d
  | f :: rest =>
    match processFileE d n f with
    | .error e => .error e
    | .ok d' => processFolderE d' n rest

def processItemE (d : ManiData) : TopItemE → Except String ManiData
  | .file _ => .ok d
  | .dir n files => processFolderE d n files

def foldItemsE (d : ManiData) : List TopItemE → Except String ManiData
  | [] => .ok d
  | it :: rest =>
    match processItemE d it with
    | .error e => .error e
    | .ok d' => foldItemsE d' rest

/-- Embedding of `getManuscriptData` (`server.js`) with its failure
behaviour: a failing `fs.readdir(DATA_PATH)` or a failing read of a
qualifying file rejects the whole call; otherwise the full aggregation is
returned. -/
def getManuscriptDataE (fs : SourceTree) : Except String ManiData :=
  match fs.rootList with
  | .error e => .error e
  | .ok items => foldItemsE { originals := [], reconstructions := [] } items

theorem processFileE_ok (d : ManiData) (n : String) (f : FileEntryE)
    (h : fileReadOk f = true) :
    processFileE d n f = .ok (processFile d n (stripFile f)) := by
  by_cases hq : qualifies f.name = true
  · rcases hc : f.content with e | c
    · simp [fileReadOk, hq, hc] at h
    · simp [processFileE, hq, hc, stripFile, processFile]
  · have hq' : qualifies (stripFile f).name = false := by
      simpa [stripFile] using (Bool.eq_false_iff.mpr hq)
    simp [processFileE, hq, processFile, hq']

theorem processFileE_error (d : ManiData) (n : String) (f : FileEntryE)
    (h : fileReadOk f = false) :
    ∃ e, processFileE d n f = .error e := by
  rcases hc : f.content with e | c
  · rcases hq : qualifies f.name with _ | _
    · simp [fileReadOk, hq, hc] at h
    · exact ⟨e, by simp [processFileE, hq, hc]⟩
  · simp [fileReadOk, hc] at h

theorem processFolderE_ok (n : String) :
    ∀ (files : List FileEntryE) (d : ManiData), files.all fileReadOk = true →
      processFolderE d n files = .ok (processFolder d n (files.map stripFile)) := by
  intro files
  induction files with
  | nil => intro d _; rfl
  | cons f rest ih =>
    intro d hall
    have hsplit : fileReadOk f = true ∧ rest.all fileReadOk = true := by
      simpa [List.all_cons, Bool.and_eq_true] using hall
    rcases hsplit with ⟨hf, hrest⟩
    have h1 : processFolderE d n (f :: rest) =
        processFolderE (processFile d n (stripFile f)) n rest := by
      simp [processFolderE, processFileE_ok d n f hf]
    rw [h1, ih _ hrest]
    rfl

theorem processFolderE_error (n : String) :
    ∀ (files : List FileEntryE) (d : ManiData), files.all fileReadOk = false →
      ∃ e, processFolderE d n files = .error e := by
  intro files
  induction files with
  | nil => intro d h; simp at h
  | cons f rest ih =>
    intro d hall
    rcases hf : fileReadOk f with _ | _
    · rcases processFileE_error d n f hf with ⟨e, he⟩
      exact ⟨e, by simp [processFolderE, he]⟩
    · have hrest : rest.all fileReadOk = false := by
        simpa [List.all_cons, hf] using hall
      have h1 : processFolderE d n (f :: rest) =
          processFolderE (processFile d n (stripFile f)) n rest := by
        simp [processFolderE, processFileE_ok d n f hf]
      rcases ih (processFile d n (stripFile f)) hrest with ⟨e, he⟩
      exact ⟨e, h1.trans he⟩

theorem foldItemsE_ok :
    ∀ (items : List TopItemE) (d : ManiData), allReadsOk items = true →
      foldItemsE d items = .ok ((items.map stripItem).foldl processItem d) := by
  intro items
  induction items with
  | nil => intro d _; rfl
  | cons it rest ih =>
    intro d hall
    have hit : itemReadsOk it = true ∧ allReadsOk rest = true := by
      simpa [allReadsOk, List.all_cons, Bool.and_eq_true] using hall
    cases it with
    | file name =>
      have h1 : foldItemsE d (TopItemE.file name :: rest) = foldItemsE d rest := rfl
      rw [h1, ih d hit.2]
      rfl
    | dir n files =>
      have hfiles : files.all fileReadOk = true := by
        simpa [itemReadsOk] using hit.1
      have h1 : foldItemsE d (TopItemE.dir n files :: rest) =
          foldItemsE (processFolder d n (files.map stripFile)) rest := by
        simp [foldItemsE, processItemE, processFolderE_ok n files d hfiles]
      rw [h1, ih _ hit.2]
      rfl

theorem foldItemsE_error :
    ∀ (items : List TopItemE) (d : ManiData), allReadsOk items = false →
      ∃ e, foldItemsE d items = .error e := by
  intro items
  induction items with
  | nil => intro d h; simp [allReadsOk] at h
  | cons it rest ih =>
    intro d hall
    rcases hit : itemReadsOk it with _ | _
    · cases it with
      | file name => simp [itemReadsOk] at hit
      | dir n files =>
        have hfiles : files.all fileReadOk = false := by
          simpa [itemReadsOk] using hit
        rcases processFolderE_error n files d hfiles with ⟨e, he⟩
        exact ⟨e, by simp [foldItemsE, processItemE, he]⟩
    · have hrest : allReadsOk rest = false := by
        simpa [allReadsOk, List.all_cons, hit] using hall
      cases it with
      | file name =>
        have h1 : foldItemsE d (TopItemE.file name :: rest) = foldItemsE d rest := rfl
        rcases ih d hrest with ⟨e, he⟩
        exact ⟨e, h1.trans he⟩
      | dir n files =>
        have hfiles : files.all fileReadOk = true := by
          simpa [itemReadsOk] using hit
        have h1 : foldItemsE d (TopItemE.dir n files :: rest) =
            foldItemsE (processFolder d n (files.map stripFile)) rest := by
          simp [foldItemsE, processItemE, processFolderE_ok n files d hfiles]
        rcases ih _ hrest with ⟨e, he⟩
        exact ⟨e, h1.trans he⟩

/-- C5: the aggregation is all-or-nothing. A failing root listing propagates
its error; given a successful listing, the call returns a value iff every
read it performs succeeds, and in that case the value is the complete
aggregation — no partial result is ever observable. -/
theorem aggregator_all_or_nothing (fs : SourceTree) :
    (∀ e, fs.rootList = .error e → getManuscriptDataE fs = .error e) ∧
    (∀ items, fs.rootList = .ok items →
      ((∃ d, getManuscriptDataE fs = .ok d) ↔ allReadsOk items = true) ∧
      (allReadsOk items = true →
        getManuscriptDataE fs = .ok (getManuscriptData (items.map stripItem)))) := by
  refine ⟨fun e he => by simp [getManuscriptDataE, he], fun items hi => ?_⟩
  have hget : getManuscriptDataE fs =
      foldItemsE { originals := [], reconstructions := [] } items := by
    simp [getManuscriptDataE, hi]
  constructor
  · constructor
    · rintro ⟨d, hd⟩
      by_contra hno
      rcases foldItemsE_error items { originals := [], reconstructions := [] }
          (Bool.eq_false_iff.mpr hno) with ⟨e, he⟩
      rw [hget, he] at hd
      exact Except.noConfusion hd
    · intro hok
      exact ⟨_, hget.trans (foldItemsE_ok items _ hok)⟩
  · intro hok
    rw [hget]
    exact foldItemsE_ok items _ hok

theorem aggregator_all_or_nothing_witness :
    getManuscriptDataE
        ⟨Except.ok [TopItemE.dir "originals" [{ name := "a.xml", content := Except.ok "x" }]]⟩
      = Except.ok (getManuscriptData [TopItem.dir "originals" [{ name := "a.xml", content := "x" }]]) :=
  ((aggregator_all_or_nothing
      ⟨Except.ok [TopItemE.dir "originals" [{ name := "a.xml", content := Except.ok "x" }]]⟩).2
    [TopItemE.dir "originals" [{ name := "a.xml", content := Except.ok "x" }]] rfl).2 (by decide)

/-- The parsed JSON body of a `POST /api/translate` request: the `text`
field may be absent. -/
structure TranslateBody where
  text : Option String
  deriving Repr, DecidableEq

/-- An HTTP response of the translate endpoint: a status code and a JSON
object with a single `error` field. -/
structure JsonErrorResponse where
  status : Nat
  error : String
  deriving Repr, DecidableEq

/-- Embedding of the `/api/translate` handler of `server.js`: it ignores the
request body and unconditionally responds
`res.status(503).json({ error: 'Translation service is not available.' })`. -/
def translateHandler (_body : TranslateBody) : JsonErrorResponse :=
  { status := 503, error := "Translation service is not available." }

/-- C6 counterexample: a `POST /api/translate` request whose body lacks a
`text` field is answered with status 503, not 400. -/
theorem translate_missing_text_not_400 :
    (translateHandler { text := none }).status = 503 ∧
    (translateHandler { text := none }).status ≠ 400 := by
  decide

/-- C6 (amended): every `POST /api/translate` request, in particular one
whose body lacks a `text` field, is answered with status 503 and the fixed
JSON error body — the handler has no 400 validation branch. -/
theorem translate_missing_text_503 (body : TranslateBody) (_h : body.text = none) :
    (translateHandler body).status = 503 ∧ (translateHandler body).status ≠ 400 ∧
    (translateHandler body).error = "Translation service is not available." :=
  ⟨rfl, by simp [translateHandler], rfl⟩

theorem translate_missing_text_503_witness :
    (translateHandler { text := none }).status = 503 ∧
    (translateHandler { text := none }).status ≠ 400 ∧
    (translateHandler { text := none }).error = "Translation service is not available." :=
  translate_missing_text_503 { text := none } rfl

end VirtualMani
